import Mathlib

/-!
Shallow embedding of the sprite-block engine of the t-on-patcher repository
(src/tamaed/main.js, canonical variant per the spec; the historical copy in
src/unnamed/part_000 shares the same codec code).

Conventions of the embedding:
* Byte buffers are `List Nat`; every byte produced by the program is `< 256`
  (JS `Uint8Array`), and theorems that need this carry it as a hypothesis.
* JS bitwise operations on byte-sized values are modelled arithmetically:
  `x & 0x0f = x % 16`, `x >> 4 = x / 16`, `(c & 0xf800) >> 11 = c / 2048 % 32`,
  `(c & 0x07e0) >> 5 = c / 32 % 64`, `c & 0x001f = c % 32`, and
  `(hi << 8) | lo = hi * 256 + lo` for `lo < 256`.
* `Math.round` on the nonnegative rationals produced here is round-half-up,
  modelled exactly on naturals; the JS float computation is exact because no
  value `c * 255 / 31` or `c * 255 / 63` (with `c < 64`) falls on a half-integer
  or close enough to one for a double rounding error to matter.
* Fallible operations (a JS `throw`) return `Option`/`Except`.
-/

/-- Round-half-up division: `Math.round (num / den)` for nonnegative operands. -/
def roundHalfUp (num den : Nat) : Nat := (2 * num + den) / (2 * den)

/-- `Math.ceil (n / d)` for nonnegative `n` and positive `d`. -/
def ceilDiv (n d : Nat) : Nat := (n + d - 1) / d

/-- One palette entry, from the body of the `decodePalette` loop in main.js:
`color16 = (hi << 8) | lo`, blue from bits 15–11, green from bits 10–5,
red from bits 4–0, each rescaled by `Math.round((field / max) * 255)`;
the pushed entry is `[red, green, blue, 255]`. -/
def decodeEntry (hi lo : Nat) : List Nat :=
  let color16 := hi * 256 + lo
  let blue := roundHalfUp ((color16 / 2048 % 32) * 255) 31
  let green := roundHalfUp ((color16 / 32 % 64) * 255) 63
  let red := roundHalfUp ((color16 % 32) * 255) 31
  [red, green, blue, 255]

/-- `TOImage.decodePalette` (main.js lines 75–87): the loop steps `i += 2`;
on an odd-length input the final iteration reads `bytes[i + 1]` past the end,
which is `undefined` in JS, and `(hi << 8) | undefined` coerces the low byte
to `0` — so the lone trailing byte decodes with a zero low byte. -/
def decodePalette : List Nat → List (List Nat)
  | [] => []
  | [hi] => [decodeEntry hi 0]
  | hi :: lo :: rest => decodeEntry hi lo :: decodePalette rest

/-- Modelled from the spec words of §4.1 (for comparison with `decodeEntry`):
a big-endian 16-bit word with 5 bits blue in bits 15–11, 6 bits green in
bits 10–5, 5 bits red in bits 4–0; each channel rescaled to 8 bits by
`round(component * 255 / max)` with max 31/63/31; alpha always 255. -/
def specPaletteEntry (w : Nat) : List Nat :=
  [roundHalfUp ((w % 32) * 255) 31,
   roundHalfUp ((w / 32 % 64) * 255) 63,
   roundHalfUp ((w / 2048) * 255) 31,
   255]

/-- The 4bpp branch of `TOImage.decodeImage` (main.js lines 94–100): each byte
yields the pixel for its low nibble then the pixel for its high nibble.  A
nibble with no palette entry makes the JS `pixels.set(palette[...], ...)` throw
(`palette[...]` is `undefined`), modelled as `none`. -/
def decodeImage4 (bytes : List Nat) (palette : List (List Nat)) :
    Option (List (List Nat)) :=
  match bytes with
  | [] => some []
  | b :: rest => do
    let lo ← palette[b % 16]?
    let hi ← palette[b / 16]?
    let tail ← decodeImage4 rest palette
    some (lo :: hi :: tail)

/-- The 8bpp branch of `TOImage.decodeImage` (main.js lines 101–105): each byte
is one palette index; an out-of-range index throws, modelled as `none`. -/
def decodeImage8 (bytes : List Nat) (palette : List (List Nat)) :
    Option (List (List Nat)) :=
  match bytes with
  | [] => some []
  | b :: rest => do
    let p ← palette[b]?
    let tail ← decodeImage8 rest palette
    some (p :: tail)

/-- `TOImage.decodeImage` (main.js lines 89–107): 4bpp when the palette has at
most 16 entries, else 8bpp. -/
def decodeImage (bytes : List Nat) (palette : List (List Nat)) :
    Option (List (List Nat)) :=
  if palette.length ≤ 16 then decodeImage4 bytes palette
  else decodeImage8 bytes palette

/-- `packRaw4bpp` (main.js lines 600–609): two indices per byte,
`(second & 0x0f) << 4 | (first & 0x0f)`; a trailing lone index gets a zero
high nibble. -/
def packRaw4bpp : List Nat → List Nat
  | [] => []
  | [a] => [a % 16]
  | a :: b :: rest => ((b % 16) * 16 + a % 16) :: packRaw4bpp rest

/-- Squared distance over the R, G, B components (alpha ignored), as computed
inside `nearestIndex` (main.js lines 610–618); JS subtracts as signed numbers,
modelled on `Int`. -/
def sqDist (a b : List Nat) : Int :=
  let dr : Int := (a.getD 0 0 : Int) - (b.getD 0 0 : Int)
  let dg : Int := (a.getD 1 0 : Int) - (b.getD 1 0 : Int)
  let db : Int := (a.getD 2 0 : Int) - (b.getD 2 0 : Int)
  dr * dr + dg * dg + db * db

/-- The loop of `nearestIndex`: `i` is the index of the head of `ps` in the
full palette, `bi`/`bd` the best index and distance so far (`none` = the
initial `Infinity`); a strict improvement updates both, and an exact
zero-distance match returns immediately (the JS `break`). -/
def nearestIdxGo (rgb : List Nat) : List (List Nat) → Nat → Nat → Option Int → Nat
  | [], _, bi, _ => bi
  | p :: rest, i, bi, bd =>
    let d := sqDist rgb p
    let beats := match bd with
      | none => true
      | some b => decide (d < b)
    if beats then
      if d = 0 then i else nearestIdxGo rgb rest (i + 1) i (some d)
    else nearestIdxGo rgb rest (i + 1) bi bd

/-- `nearestIndex` (main.js lines 610–618). -/
def nearestIndex (rgb : List Nat) (palette : List (List Nat)) : Nat :=
  nearestIdxGo rgb palette 0 0 none

/-- The quantization loop of `pngToRawUsingPalette` (main.js lines 632–639):
each RGBA pixel is mapped to its nearest palette index. -/
def quantize (pixels : List (List Nat)) (palette : List (List Nat)) : List Nat :=
  pixels.map (fun p => nearestIndex p palette)

/-- `TODataItem`/`TOImage` (main.js lines 34–62): a discovered block records
its absolute offset and its raw byte span; `size` is the span's length and the
header fields are read from the span's first bytes. -/
structure TOImage where
  offset : Nat
  bytes : List Nat
deriving DecidableEq

/-- `this.size = bytes.length` in the `TODataItem` constructor. -/
def TOImage.size (t : TOImage) : Nat := t.bytes.length

/-- `this.width = bytes[0]`. -/
def TOImage.width (t : TOImage) : Nat := t.bytes.getD 0 0

/-- `this.height = bytes[1]`. -/
def TOImage.height (t : TOImage) : Nat := t.bytes.getD 1 0

/-- `this.colorsCount = bytes[2]`. -/
def TOImage.colorsCount (t : TOImage) : Nat := t.bytes.getD 2 0

/-- The `totalSize` computed by a successful probe (main.js lines 126–131):
`headerSize = 6 + colors * 2` plus `Math.ceil(width * height / pixelsPerByte)`
with `pixelsPerByte = colors > 16 ? 1 : 2`. -/
def scanTotalSize (bytes : List Nat) (offset : Nat) : Nat :=
  let colors := bytes.getD (offset + 2) 0
  let pixelsPerByte := if 16 < colors then 1 else 2
  6 + colors * 2 +
    (bytes.getD (offset + 0) 0 * bytes.getD (offset + 1) 0 + (pixelsPerByte - 1)) /
      pixelsPerByte

/-- `TOImage.scanForImage` (main.js lines 109–138).  Out-of-range reads give
`undefined` in JS; with `List.getD _ 0` every conjunct of the header check has
the same truth value as in JS (when the length guard fails the conjunction is
false either way, and the guard puts offsets 0–5 in range otherwise).
`Math.ceil(pixels / pixelsPerByte)` is exact natural ceiling division. -/
def scanForImage (bytes : List Nat) (offset : Nat) : Option TOImage :=
  if 10 < bytes.length - offset ∧
      0 < bytes.getD (offset + 0) 0 ∧ bytes.getD (offset + 0) 0 ≤ 255 ∧
      0 < bytes.getD (offset + 1) 0 ∧ bytes.getD (offset + 1) 0 ≤ 255 ∧
      0 < bytes.getD (offset + 2) 0 ∧
      bytes.getD (offset + 3) 0 = 0 ∧
      bytes.getD (offset + 4) 0 = 1 ∧
      bytes.getD (offset + 5) 0 = 255 then
    if bytes.length < offset + scanTotalSize bytes offset then none
    else some ⟨offset, (bytes.drop offset).take (scanTotalSize bytes offset)⟩
  else none

/-- The acceptance conditions shared by the claim's reading of the probe and
its correction: dimension/color ranges, the three magic bytes, and the
computed block span fitting inside the buffer. -/
def scanAcceptCore (bytes : List Nat) (offset : Nat) : Prop :=
  1 ≤ bytes.getD (offset + 0) 0 ∧ bytes.getD (offset + 0) 0 ≤ 255 ∧
  1 ≤ bytes.getD (offset + 1) 0 ∧ bytes.getD (offset + 1) 0 ≤ 255 ∧
  1 ≤ bytes.getD (offset + 2) 0 ∧
  bytes.getD (offset + 3) 0 = 0 ∧
  bytes.getD (offset + 4) 0 = 1 ∧
  bytes.getD (offset + 5) 0 = 255 ∧
  offset + (6 + bytes.getD (offset + 2) 0 * 2 +
    ceilDiv (bytes.getD (offset + 0) 0 * bytes.getD (offset + 1) 0)
      (if bytes.getD (offset + 2) 0 ≤ 16 then 2 else 1)) ≤ bytes.length

/-- The claim's acceptance predicate, verbatim reading: "at least 10 bytes
remain in the buffer from that offset" plus the shared conditions. -/
def scanAcceptClaimed (bytes : List Nat) (offset : Nat) : Prop :=
  10 ≤ bytes.length - offset ∧ scanAcceptCore bytes offset

/-- The corrected acceptance predicate: the code demands strictly more than 10
remaining bytes (at least 11). -/
def scanAcceptAmended (bytes : List Nat) (offset : Nat) : Prop :=
  11 ≤ bytes.length - offset ∧ scanAcceptCore bytes offset

/-- The computed block span is never zero (it contains the 6 header bytes). -/
theorem scanTotalSize_pos (bytes : List Nat) (offset : Nat) :
    6 ≤ scanTotalSize bytes offset := by
  unfold scanTotalSize
  dsimp only
  exact le_trans (Nat.le_add_right 6 _) (Nat.le_add_right _ _)

/-- A successful probe returns a block anchored at the probed offset whose
span is the computed total size, which fits in the buffer and is positive. -/
theorem scanForImage_some_spec (bytes : List Nat) (idx : Nat) (item : TOImage)
    (h : scanForImage bytes idx = some item) :
    item.offset = idx ∧ 1 ≤ item.size ∧ idx + item.size ≤ bytes.length := by
  unfold scanForImage at h
  split at h
  · split at h
    · exact absurd h (by simp)
    · rename_i hfits
      have hpos := scanTotalSize_pos bytes idx
      cases h
      refine ⟨rfl, ?_, ?_⟩
      · simp only [TOImage.size, List.length_take, List.length_drop]
        omega
      · simp only [TOImage.size, List.length_take, List.length_drop]
        omega
  · exact absurd h (by simp)

/-- `Application.buildMap` (main.js lines 192–206) specialised to the image
scanner, as the app constructs it: walk every offset; on a match push the
block and skip past its full span (`idx += item.size - 1` plus the loop
increment), else advance one byte. -/
def buildMapAux (bytes : List Nat) (idx : Nat) : List TOImage :=
  if h : idx < bytes.length then
    match hs : scanForImage bytes idx with
    | some item => item :: buildMapAux bytes (idx + item.size)
    | none => buildMapAux bytes (idx + 1)
  else []
termination_by bytes.length - idx
decreasing_by
  · have := scanForImage_some_spec bytes idx item hs
    omega
  · omega

/-- The full-buffer scan starting at offset 0. -/
def buildMap (bytes : List Nat) : List TOImage := buildMapAux bytes 0

/-- The record built by `headerInfo` (main.js lines 591–599). -/
structure HeaderInfo where
  w : Nat
  h : Nat
  colors : Nat
  ok : Bool
  headerSize : Nat
  dataStart : Nat
  dataLen : Nat
deriving DecidableEq

/-- `headerInfo` (main.js lines 591–599): reads the header fields at `off`,
checks the magic bytes, and computes the pixel-data start
`off + 6 + colors * 2` and length `ceil(w * h / 2)` for 4bpp
(`colors ≤ 16`) or `w * h` for 8bpp. -/
def headerInfo (bytes : List Nat) (off : Nat) : HeaderInfo :=
  let w := bytes.getD (off + 0) 0
  let h := bytes.getD (off + 1) 0
  let colors := bytes.getD (off + 2) 0
  { w := w
    h := h
    colors := colors
    ok := decide (bytes.getD (off + 3) 0 = 0 ∧ bytes.getD (off + 4) 0 = 1 ∧
      bytes.getD (off + 5) 0 = 255)
    headerSize := 6 + colors * 2
    dataStart := off + (6 + colors * 2)
    dataLen := if colors ≤ 16 then (w * h + 1) / 2 else w * h }

/-- The failure modes of `patchRawIntoFirmware`: the explicit length check
throws a size-mismatch `Error`, and an out-of-bounds `Uint8Array.set` throws
a `RangeError`. -/
inductive PatchError where
  | sizeMismatch (expected actual : Nat)
  | rangeError
deriving DecidableEq

/-- `fwBytes.set(rawBytes, dataStart)` when in bounds: overwrite the slice
`[start, start + raw.length)` of `fw`. -/
def writeAt (fw : List Nat) (start : Nat) (raw : List Nat) : List Nat :=
  fw.take start ++ raw ++ fw.drop (start + raw.length)

/-- `patchRawIntoFirmware` (main.js lines 647–653): reject a replacement whose
length differs from `info.dataLen`; otherwise `fwBytes.set(rawBytes,
info.dataStart)`.  `Uint8Array.set` validates its bounds before copying a
single byte, so an out-of-range set throws `RangeError` with the target
untouched; both failure modes therefore leave the firmware copy unchanged.
The JS function also receives the block offset `off`, which it never uses
(the data start comes from `info`). -/
def patchRawIntoFirmware (fwBytes : List Nat) (off : Nat) (rawBytes : List Nat)
    (info : HeaderInfo) : Except PatchError (List Nat) :=
  if rawBytes.length ≠ info.dataLen then
    .error (.sizeMismatch info.dataLen rawBytes.length)
  else if fwBytes.length < info.dataStart + rawBytes.length then
    .error .rangeError
  else
    .ok (writeAt fwBytes info.dataStart rawBytes)
  -- `off` is passed by every caller but unused by the JS body.

/-- The state of the firmware copy after a patch attempt: the patched bytes on
success, the untouched input on failure (the JS function throws before any
write: the length check precedes the `set`, and a throwing `set` has validated
bounds before copying). -/
def patchResult (fwBytes : List Nat) (off : Nat) (rawBytes : List Nat)
    (info : HeaderInfo) : List Nat :=
  match patchRawIntoFirmware fwBytes off rawBytes info with
  | .ok out => out
  | .error _ => fwBytes

/-! ## Helper lemmas -/

/-- Unfolding `buildMapAux` when the probe matches. -/
theorem buildMapAux_eq_some (bytes : List Nat) (idx : Nat) (item : TOImage)
    (h : idx < bytes.length) (hs : scanForImage bytes idx = some item) :
    buildMapAux bytes idx = item :: buildMapAux bytes (idx + item.size) := by
  rw [buildMapAux, dif_pos h]
  split
  · rename_i it hs'
    rw [hs] at hs'
    cases hs'
    rfl
  · rename_i hs'
    rw [hs] at hs'
    exact absurd hs' (by simp)

/-- Unfolding `buildMapAux` when the probe fails. -/
theorem buildMapAux_eq_none (bytes : List Nat) (idx : Nat)
    (h : idx < bytes.length) (hs : scanForImage bytes idx = none) :
    buildMapAux bytes idx = buildMapAux bytes (idx + 1) := by
  rw [buildMapAux, dif_pos h]
  split
  · rename_i it hs'
    rw [hs] at hs'
    exact absurd hs' (by simp)
  · rfl

/-- Unfolding `buildMapAux` past the end of the buffer. -/
theorem buildMapAux_eq_nil (bytes : List Nat) (idx : Nat)
    (h : ¬ idx < bytes.length) : buildMapAux bytes idx = [] := by
  rw [buildMapAux, dif_neg h]

/-- Every block discovered from cursor position `idx` lies at or after `idx`. -/
theorem buildMapAux_offset_le (bytes : List Nat) (idx : Nat) :
    ∀ b ∈ buildMapAux bytes idx, idx ≤ b.offset := by
  refine buildMapAux.induct bytes
    (fun idx => ∀ b ∈ buildMapAux bytes idx, idx ≤ b.offset) ?_ ?_ ?_ idx
  · intro idx hlt item hs ih
    rw [buildMapAux_eq_some bytes idx item hlt hs]
    intro b hb
    rcases List.mem_cons.mp hb with rfl | hb
    · have := (scanForImage_some_spec bytes idx b hs).1
      omega
    · have h1 := ih b hb
      have h2 := (scanForImage_some_spec bytes idx item hs).2.1
      omega
  · intro idx hlt hs ih
    rw [buildMapAux_eq_none bytes idx hlt hs]
    intro b hb
    have := ih b hb
    omega
  · intro idx hlt
    rw [buildMapAux_eq_nil bytes idx hlt]
    intro b hb
    exact absurd hb (by simp)

/-- Adjacent blocks of the scan are disjoint and strictly ordered. -/
theorem buildMapAux_chain (bytes : List Nat) (idx : Nat) :
    List.Chain' (fun a b => a.offset + a.size ≤ b.offset ∧ a.offset < b.offset)
      (buildMapAux bytes idx) := by
  refine buildMapAux.induct bytes
    (fun idx => List.Chain'
      (fun a b => a.offset + a.size ≤ b.offset ∧ a.offset < b.offset)
      (buildMapAux bytes idx)) ?_ ?_ ?_ idx
  · intro idx hlt item hs ih
    rw [buildMapAux_eq_some bytes idx item hlt hs]
    refine List.chain'_cons'.mpr ⟨?_, ih⟩
    intro y hy
    have hmem : y ∈ buildMapAux bytes (idx + item.size) := List.mem_of_mem_head? hy
    have h1 := buildMapAux_offset_le bytes (idx + item.size) y hmem
    have h2 := scanForImage_some_spec bytes idx item hs
    omega
  · intro idx hlt hs ih
    rw [buildMapAux_eq_none bytes idx hlt hs]
    exact ih
  · intro idx hlt
    rw [buildMapAux_eq_nil bytes idx hlt]
    exact List.chain'_nil

/-- On byte-valued inputs the source's mask-and-shift field extraction agrees
with the spec's bit-position description of a BGR565 word. -/
theorem decodeEntry_eq_spec (hi lo : Nat) (hhi : hi < 256) (hlo : lo < 256) :
    decodeEntry hi lo = specPaletteEntry (hi * 256 + lo) := by
  unfold decodeEntry specPaletteEntry
  dsimp only
  have h32 : (hi * 256 + lo) / 2048 % 32 = (hi * 256 + lo) / 2048 := by omega
  rw [h32]

/-- `decodePalette` produces one entry per byte pair, rounding the count up on
an odd tail. -/
theorem decodePalette_length (bytes : List Nat) :
    (decodePalette bytes).length = (bytes.length + 1) / 2 := by
  refine decodePalette.induct (fun bytes =>
    (decodePalette bytes).length = (bytes.length + 1) / 2) ?_ ?_ ?_ bytes
  · rfl
  · intro hi
    simp [decodePalette]
  · intro hi lo rest ih
    simp only [decodePalette, List.length_cons, ih]
    omega

/-- An odd-length palette input decodes exactly like the same input with a
zero byte appended: the lone trailing byte becomes the high byte of a word
whose low byte is 0. -/
theorem decodePalette_odd_append (bytes : List Nat) (hodd : bytes.length % 2 = 1) :
    decodePalette bytes = decodePalette (bytes ++ [0]) := by
  refine decodePalette.induct (fun bytes => bytes.length % 2 = 1 →
    decodePalette bytes = decodePalette (bytes ++ [0])) ?_ ?_ ?_ bytes hodd
  · intro h
    exact absurd h (by simp)
  · intro hi _h
    rfl
  · intro hi lo rest ih h
    have hrest : rest.length % 2 = 1 := by
      simp only [List.length_cons] at h
      omega
    simp only [List.cons_append, decodePalette, ih hrest, List.append_eq]

/-- Entry `j` of the decoded palette comes from byte pair `(2j, 2j+1)`. -/
theorem decodePalette_getD (bytes : List Nat) (j : Nat)
    (hj : j < (bytes.length + 1) / 2) :
    (decodePalette bytes).getD j [] =
      decodeEntry (bytes.getD (2 * j) 0) (bytes.getD (2 * j + 1) 0) := by
  induction bytes using decodePalette.induct generalizing j with
  | case1 =>
    simp at hj
  | case2 hi =>
    have hj0 : j = 0 := by
      simp only [List.length_singleton] at hj
      omega
    subst hj0
    rfl
  | case3 hi lo rest ih =>
    cases j with
    | zero => rfl
    | succ j =>
      have hj' : j < (rest.length + 1) / 2 := by
        simp only [List.length_cons] at hj
        omega
      have h2 : 2 * (j + 1) = 2 * j + 1 + 1 := by ring
      have h3 : 2 * (j + 1) + 1 = 2 * j + 1 + 1 + 1 := by ring
      simp only [decodePalette, List.getD_cons_succ, h2, h3, ih j hj']

/-- Characterisation of a successful 4bpp decode: twice as many pixels as
bytes, the low-nibble pixel at each even position, the high-nibble pixel at
the following odd position. -/
theorem decodeImage4_some (bytes : List Nat) (palette : List (List Nat)) :
    ∀ pixels : List (List Nat), decodeImage4 bytes palette = some pixels →
      pixels.length = 2 * bytes.length ∧
      ∀ j : Nat, j < bytes.length →
        pixels.getD (2 * j) [] = palette.getD (bytes.getD j 0 % 16) [] ∧
        pixels.getD (2 * j + 1) [] = palette.getD (bytes.getD j 0 / 16) [] := by
  induction bytes with
  | nil =>
    intro pixels h
    simp only [decodeImage4] at h
    cases h
    exact ⟨rfl, fun j hj => absurd hj (by simp)⟩
  | cons b rest ih =>
    intro pixels h
    simp only [decodeImage4, Option.bind_eq_bind, Option.bind_eq_some] at h
    obtain ⟨lo, hlo, hi, hhi, tail, htail, hpix⟩ := h
    cases hpix
    have hlolt : b % 16 < palette.length := by
      by_contra hge
      rw [List.getElem?_eq_none (by omega)] at hlo
      exact absurd hlo (by simp)
    have hhilt : b / 16 < palette.length := by
      by_contra hge
      rw [List.getElem?_eq_none (by omega)] at hhi
      exact absurd hhi (by simp)
    obtain ⟨htl, hpt⟩ := ih tail htail
    refine ⟨by simp [htl]; ring, ?_⟩
    intro j hj
    cases j with
    | zero =>
      constructor
      · rw [List.getElem?_eq_getElem hlolt] at hlo
        simp only [List.getD_eq_getElem?_getD, Option.some.injEq] at hlo ⊢
        simp [List.getElem?_eq_getElem hlolt, hlo, List.getD_cons_zero]
      · rw [List.getElem?_eq_getElem hhilt] at hhi
        simp only [List.getD_eq_getElem?_getD, Option.some.injEq] at hhi ⊢
        simp [List.getElem?_eq_getElem hhilt, hhi]
    | succ j =>
      have h2 : 2 * (j + 1) = 2 * j + 1 + 1 := by ring
      have h3 : 2 * (j + 1) + 1 = 2 * j + 1 + 1 + 1 := by ring
      have := hpt j (by simpa using hj)
      simp only [h2, h3, List.getD_cons_succ, List.getD_cons_zero]
      simpa using this

/-- An 8bpp decode with all indices in range returns exactly the indexed
palette entries. -/
theorem decodeImage8_map (palette : List (List Nat)) :
    ∀ bytes : List Nat, (∀ i ∈ bytes, i < palette.length) →
      decodeImage8 bytes palette = some (bytes.map fun i => palette.getD i []) := by
  intro bytes
  induction bytes with
  | nil => intro _h; rfl
  | cons b rest ih =>
    intro hb
    have hblt : b < palette.length := hb b (by simp)
    simp only [decodeImage8, Option.bind_eq_bind, List.map_cons]
    rw [List.getElem?_eq_getElem hblt, ih (fun i hi => hb i (by simp [hi]))]
    simp [List.getD_eq_getElem?_getD, List.getElem?_eq_getElem hblt]

/-- Packing indices below the palette size at 4bpp and decoding the packed
bytes restores the indexed palette entries in order; an odd pixel count
appends one extra pixel decoded from the zero-padded high nibble, i.e. palette
entry 0. -/
theorem decodeImage4_packRaw4bpp (palette : List (List Nat)) :
    ∀ indices : List Nat, (∀ i ∈ indices, i < palette.length) →
      palette.length ≤ 16 →
      decodeImage4 (packRaw4bpp indices) palette =
        some ((indices.map fun i => palette.getD i []) ++
          (if indices.length % 2 = 1 then [palette.getD 0 []] else [])) := by
  intro indices
  refine packRaw4bpp.induct (fun indices =>
    (∀ i ∈ indices, i < palette.length) → palette.length ≤ 16 →
    decodeImage4 (packRaw4bpp indices) palette =
      some ((indices.map fun i => palette.getD i []) ++
        (if indices.length % 2 = 1 then [palette.getD 0 []] else [])))
    ?_ ?_ ?_ indices
  · intro _hb _h16
    rfl
  · intro a hb h16
    have ha : a < palette.length := hb a (by simp)
    have ha16 : a < 16 := by omega
    have hmod : a % 16 = a := Nat.mod_eq_of_lt ha16
    have h0 : 0 < palette.length := by omega
    simp only [packRaw4bpp, decodeImage4, Option.bind_eq_bind]
    have hb1 : a % 16 % 16 = a := by omega
    have hb2 : a % 16 / 16 = 0 := by omega
    rw [hb1, hb2, List.getElem?_eq_getElem ha, List.getElem?_eq_getElem h0]
    simp [List.getD_eq_getElem?_getD, List.getElem?_eq_getElem ha,
      List.getElem?_eq_getElem h0]
  · intro a b rest ih hb h16
    have ha : a < palette.length := hb a (by simp)
    have hbb : b < palette.length := hb b (by simp)
    have hrest : ∀ i ∈ rest, i < palette.length := fun i hi => hb i (by simp [hi])
    have hlow : ((b % 16) * 16 + a % 16) % 16 = a := by omega
    have hhigh : ((b % 16) * 16 + a % 16) / 16 = b := by omega
    simp only [packRaw4bpp, decodeImage4, Option.bind_eq_bind]
    rw [hlow, hhigh, List.getElem?_eq_getElem ha, List.getElem?_eq_getElem hbb,
      ih hrest h16]
    simp only [Option.some_bind, List.map_cons, List.length_cons]
    have hpar : (rest.length + 1 + 1) % 2 = rest.length % 2 := by omega
    simp only [hpar]
    simp [List.getD_eq_getElem?_getD, List.getElem?_eq_getElem ha,
      List.getElem?_eq_getElem hbb]

/-- The R, G, B components of a palette entry (the channels `nearestIndex`
compares; alpha is ignored). -/
def rgb3 (p : List Nat) : List Nat := [p.getD 0 0, p.getD 1 0, p.getD 2 0]

/-- The squared colour distance is nonnegative. -/
theorem sqDist_nonneg (a b : List Nat) : 0 ≤ sqDist a b := by
  unfold sqDist
  dsimp only
  have h1 := mul_self_nonneg ((a.getD 0 0 : Int) - (b.getD 0 0 : Int))
  have h2 := mul_self_nonneg ((a.getD 1 0 : Int) - (b.getD 1 0 : Int))
  have h3 := mul_self_nonneg ((a.getD 2 0 : Int) - (b.getD 2 0 : Int))
  linarith

/-- Zero squared distance is exactly agreement on the R, G, B components. -/
theorem sqDist_eq_zero_iff (a b : List Nat) :
    sqDist a b = 0 ↔ rgb3 a = rgb3 b := by
  unfold sqDist rgb3
  dsimp only
  constructor
  · intro h
    have h1 := mul_self_nonneg ((a.getD 0 0 : Int) - (b.getD 0 0 : Int))
    have h2 := mul_self_nonneg ((a.getD 1 0 : Int) - (b.getD 1 0 : Int))
    have h3 := mul_self_nonneg ((a.getD 2 0 : Int) - (b.getD 2 0 : Int))
    have e1 : ((a.getD 0 0 : Int) - (b.getD 0 0 : Int)) = 0 := by nlinarith
    have e2 : ((a.getD 1 0 : Int) - (b.getD 1 0 : Int)) = 0 := by nlinarith
    have e3 : ((a.getD 2 0 : Int) - (b.getD 2 0 : Int)) = 0 := by nlinarith
    have n1 : a.getD 0 0 = b.getD 0 0 := by omega
    have n2 : a.getD 1 0 = b.getD 1 0 := by omega
    have n3 : a.getD 2 0 = b.getD 2 0 := by omega
    simp only [List.getD_eq_getElem?_getD] at n1 n2 n3
    simp [n1, n2, n3]
  · intro h
    simp only [List.cons.injEq, and_true] at h
    obtain ⟨n1, n2, n3⟩ := h
    simp only [List.getD_eq_getElem?_getD] at n1 n2 n3
    simp [n1, n2, n3]

/-- The scan of `nearestIndex` returns the position of the first zero-distance
entry of the remaining palette, provided the best distance so far is positive:
earlier positive candidates only shrink the (still positive) best distance,
and the zero hit returns through the early exit. -/
theorem nearestIdxGo_first_zero (rgb : List Nat) :
    ∀ (ps : List (List Nat)) (i bi : Nat) (bd : Option Int),
      (∀ d0 : Int, bd = some d0 → 0 < d0) →
      ∀ k : Nat, k < ps.length → sqDist rgb (ps.getD k []) = 0 →
      (∀ m : Nat, m < k → sqDist rgb (ps.getD m []) ≠ 0) →
      nearestIdxGo rgb ps i bi bd = i + k := by
  intro ps
  induction ps with
  | nil =>
    intro i bi bd _hbd k hk
    exact absurd hk (by simp)
  | cons p rest ih =>
    intro i bi bd hbd k hk hzero hbefore
    cases k with
    | zero =>
      rw [List.getD_cons_zero] at hzero
      rcases bd with _ | d0
      · simp [nearestIdxGo, hzero]
      · have hpos := hbd d0 rfl
        have hlt : sqDist rgb p < d0 := by rw [hzero]; exact hpos
        simp [nearestIdxGo, hzero, hlt, hpos]
    | succ k' =>
      have hdpos : 0 < sqDist rgb p := by
        have hne := hbefore 0 (by omega)
        rw [List.getD_cons_zero] at hne
        have := sqDist_nonneg rgb p
        omega
      have hk' : k' < rest.length := by simpa using hk
      have hzero' : sqDist rgb (rest.getD k' []) = 0 := by
        simpa [List.getD_cons_succ] using hzero
      have hbefore' : ∀ m : Nat, m < k' → sqDist rgb (rest.getD m []) ≠ 0 := by
        intro m hm
        have := hbefore (m + 1) (by omega)
        simpa [List.getD_cons_succ] using this
      have hne0 : ¬ sqDist rgb p = 0 := by omega
      rcases bd with _ | d0
      · have hrec := ih (i + 1) i (some (sqDist rgb p))
          (by intro d0 hd0; cases hd0; exact hdpos) k' hk' hzero' hbefore'
        simp [nearestIdxGo, hne0, hrec]
        omega
      · by_cases hbeat : sqDist rgb p < d0
        · have hrec := ih (i + 1) i (some (sqDist rgb p))
            (by intro d1 hd1; cases hd1; exact hdpos) k' hk' hzero' hbefore'
          simp [nearestIdxGo, hne0, hbeat, hrec]
          omega
        · have hrec := ih (i + 1) bi (some d0) hbd k' hk' hzero' hbefore'
          simp [nearestIdxGo, hne0, hbeat, hrec]
          omega

/-- Quantizing the `i`-th palette colour recovers `i` when no earlier entry
shares its R, G, B components. -/
theorem nearestIndex_getD (palette : List (List Nat)) (i : Nat)
    (hi : i < palette.length)
    (hfirst : ∀ m : Nat, m < i → rgb3 (palette.getD m []) ≠ rgb3 (palette.getD i [])) :
    nearestIndex (palette.getD i []) palette = i := by
  unfold nearestIndex
  have h := nearestIdxGo_first_zero (palette.getD i []) palette 0 0 none
    (by intro d0 hd0; cases hd0) i hi
    (sqDist_eq_zero_iff _ _ |>.mpr rfl)
    (by
      intro m hm hzero
      exact hfirst m hm ((sqDist_eq_zero_iff _ _).mp hzero).symm)
  simpa using h

/-- The index `nearestIndex` returns for any palette colour is a zero-distance
match (the scan's early exit fires at the first zero-distance entry). -/
theorem nearestIndex_zero_dist (palette : List (List Nat)) (i : Nat)
    (hi : i < palette.length) :
    sqDist (palette.getD i [])
      (palette.getD (nearestIndex (palette.getD i []) palette) []) = 0 := by
  have hex : ∃ n : Nat, sqDist (palette.getD i []) (palette.getD n []) = 0 :=
    ⟨i, (sqDist_eq_zero_iff _ _).mpr rfl⟩
  classical
  set k := Nat.find hex with hk
  have hkzero : sqDist (palette.getD i []) (palette.getD k []) = 0 := Nat.find_spec hex
  have hkmin : ∀ m : Nat, m < k → sqDist (palette.getD i []) (palette.getD m []) ≠ 0 :=
    fun m hm => Nat.find_min hex hm
  have hklt : k < palette.length := by
    have : k ≤ i := Nat.find_min' hex ((sqDist_eq_zero_iff _ _).mpr rfl)
    omega
  have h := nearestIdxGo_first_zero (palette.getD i []) palette 0 0 none
    (by intro d0 hd0; cases hd0) k hklt hkzero hkmin
  unfold nearestIndex
  rw [h]
  simpa using hkzero

/-- `writeAt` preserves the buffer length when the write fits. -/
theorem writeAt_length (fw : List Nat) (start : Nat) (raw : List Nat)
    (h : start + raw.length ≤ fw.length) :
    (writeAt fw start raw).length = fw.length := by
  unfold writeAt
  simp only [List.length_append, List.length_take, List.length_drop]
  omega

/-- `writeAt` leaves every byte outside `[start, start + raw.length)`
unchanged. -/
theorem writeAt_getD_outside (fw : List Nat) (start : Nat) (raw : List Nat)
    (hfit : start + raw.length ≤ fw.length) (i : Nat)
    (hout : i < start ∨ start + raw.length ≤ i) :
    (writeAt fw start raw).getD i 0 = fw.getD i 0 := by
  unfold writeAt
  simp only [List.getD_eq_getElem?_getD]
  rcases hout with hlt | hge
  · rw [List.getElem?_append, if_pos (by simp; omega)]
    rw [List.getElem?_append, if_pos (by simp; omega)]
    rw [List.getElem?_take, if_pos hlt]
  · rw [List.getElem?_append_right (by simp; omega)]
    rw [List.getElem?_drop]
    have heq : start + raw.length + (i - (List.take start fw ++ raw).length) = i := by
      simp only [List.length_append, List.length_take]
      omega
    rw [heq]

/-- The code's `totalSize` equals the spec's
`6 + colorCount*2 + ceil(width*height / pixelsPerEntry)`. -/
theorem scanTotalSize_eq_ceil (bytes : List Nat) (offset : Nat) :
    scanTotalSize bytes offset =
      6 + bytes.getD (offset + 2) 0 * 2 +
        ceilDiv (bytes.getD (offset + 0) 0 * bytes.getD (offset + 1) 0)
          (if bytes.getD (offset + 2) 0 ≤ 16 then 2 else 1) := by
  unfold scanTotalSize ceilDiv
  dsimp only
  by_cases h : 16 < bytes.getD (offset + 2) 0
  · simp only [if_pos h, if_neg (by omega : ¬ bytes.getD (offset + 2) 0 ≤ 16)]
    omega
  · simp only [if_neg h, if_pos (by omega : bytes.getD (offset + 2) 0 ≤ 16)]
    omega

/-! ## Claim theorems -/

/-- C1: for every firmware copy, block-header record, and replacement buffer
whose length equals the block's recorded pixel-data length, a successful patch
preserves the buffer length and changes no byte outside
`[dataStart, dataStart + length)`; a failed patch leaves the copy untouched
altogether. -/
theorem patch_preserves_surrounding_bytes (fwBytes : List Nat) (off : Nat)
    (rawBytes : List Nat) (info : HeaderInfo)
    (hlen : rawBytes.length = info.dataLen) (out : List Nat)
    (hok : patchRawIntoFirmware fwBytes off rawBytes info = .ok out) :
    out.length = fwBytes.length ∧
    ∀ i : Nat, i < info.dataStart ∨ info.dataStart + rawBytes.length ≤ i →
      out.getD i 0 = fwBytes.getD i 0 := by
  unfold patchRawIntoFirmware at hok
  rw [if_neg (by omega)] at hok
  split at hok
  · exact absurd hok (by simp)
  · rename_i hfit
    cases hok
    refine ⟨writeAt_length fwBytes info.dataStart rawBytes (by omega), ?_⟩
    intro i hi
    exact writeAt_getD_outside fwBytes info.dataStart rawBytes (by omega) i hi

/-- C1 witness: patching the one-byte pixel data of the 1×1 single-colour
block at offset 0 of a 10-byte firmware leaves bytes 0–7 and 9 unchanged. -/
theorem patch_preserves_surrounding_bytes_witness :
    ([1, 1, 1, 0, 1, 255, 7, 7, 42, 99] : List Nat).length =
      ([1, 1, 1, 0, 1, 255, 7, 7, 5, 99] : List Nat).length ∧
    ([1, 1, 1, 0, 1, 255, 7, 7, 42, 99] : List Nat).getD 9 0 =
      ([1, 1, 1, 0, 1, 255, 7, 7, 5, 99] : List Nat).getD 9 0 := by
  have h := patch_preserves_surrounding_bytes
    [1, 1, 1, 0, 1, 255, 7, 7, 5, 99] 0 [42]
    (headerInfo [1, 1, 1, 0, 1, 255, 7, 7, 5, 99] 0)
    (by decide) [1, 1, 1, 0, 1, 255, 7, 7, 42, 99] (by rfl)
  exact ⟨h.1, h.2 9 (by right; decide)⟩

/-- C7: the patch fails with the size-mismatch error exactly when the
replacement length differs from the block's recorded pixel-data length, and
any failure leaves the firmware copy unchanged. -/
theorem patch_size_mismatch_iff (fwBytes : List Nat) (off : Nat)
    (rawBytes : List Nat) (info : HeaderInfo) :
    (patchRawIntoFirmware fwBytes off rawBytes info =
        .error (.sizeMismatch info.dataLen rawBytes.length) ↔
      rawBytes.length ≠ info.dataLen) ∧
    (∀ e : PatchError, patchRawIntoFirmware fwBytes off rawBytes info = .error e →
      patchResult fwBytes off rawBytes info = fwBytes) := by
  constructor
  · unfold patchRawIntoFirmware
    split_ifs with h1 h2
    · simp [h1]
    · simp [h1]
    · simp [h1]
  · intro e he
    unfold patchResult
    rw [he]

/-- C7 witness: an empty replacement for a block expecting one pixel byte
fails with the size mismatch naming 1 expected versus 0 actual, and the
firmware copy is unchanged. -/
theorem patch_size_mismatch_iff_witness :
    patchRawIntoFirmware [1, 1, 1, 0, 1, 255, 7, 7, 5, 99] 0 []
        (headerInfo [1, 1, 1, 0, 1, 255, 7, 7, 5, 99] 0) =
      .error (.sizeMismatch 1 0) ∧
    patchResult [1, 1, 1, 0, 1, 255, 7, 7, 5, 99] 0 []
        (headerInfo [1, 1, 1, 0, 1, 255, 7, 7, 5, 99] 0) =
      [1, 1, 1, 0, 1, 255, 7, 7, 5, 99] := by
  have h := patch_size_mismatch_iff [1, 1, 1, 0, 1, 255, 7, 7, 5, 99] 0 []
    (headerInfo [1, 1, 1, 0, 1, 255, 7, 7, 5, 99] 0)
  have hmis := h.1.mpr (by decide)
  exact ⟨hmis, h.2 (.sizeMismatch 1 0) hmis⟩

/-- C10: 4bpp packing masks every index to its low nibble — the packed bytes
depend only on the indices mod 16, every output byte is below 256 (so both of
its nibbles are at most 15), and byte `j` is exactly
`(index[2j+1] % 16) * 16 + index[2j] % 16` (a missing odd-tail partner packs
as a zero high nibble). -/
theorem packRaw4bpp_mask_mod16 (indexes : List Nat) :
    packRaw4bpp indexes = packRaw4bpp (indexes.map fun i => i % 16) ∧
    (∀ j : Nat, (packRaw4bpp indexes).getD j 0 =
      (indexes.getD (2 * j + 1) 0 % 16) * 16 + indexes.getD (2 * j) 0 % 16) ∧
    (∀ j : Nat, (packRaw4bpp indexes).getD j 0 < 256) := by
  refine packRaw4bpp.induct (fun indexes =>
    packRaw4bpp indexes = packRaw4bpp (indexes.map fun i => i % 16) ∧
    (∀ j : Nat, (packRaw4bpp indexes).getD j 0 =
      (indexes.getD (2 * j + 1) 0 % 16) * 16 + indexes.getD (2 * j) 0 % 16) ∧
    (∀ j : Nat, (packRaw4bpp indexes).getD j 0 < 256)) ?_ ?_ ?_ indexes
  · exact ⟨rfl, fun j => rfl, fun j => by simp [packRaw4bpp]⟩
  · intro a
    refine ⟨by simp only [packRaw4bpp, List.map_cons, List.map_nil]; congr 1; omega,
      ?_, ?_⟩
    · intro j
      cases j with
      | zero => simp [packRaw4bpp]
      | succ j =>
        simp only [packRaw4bpp, List.getD_cons_succ]
        have h1 : 2 * (j + 1) + 1 = 2 * j + 3 := by ring
        have h2 : 2 * (j + 1) = 2 * j + 2 := by ring
        simp [h1, h2, List.getD]
    · intro j
      cases j with
      | zero => simp [packRaw4bpp]; omega
      | succ j => simp [packRaw4bpp, List.getD]
  · intro a b rest ih
    obtain ⟨ih1, ih2, ih3⟩ := ih
    refine ⟨?_, ?_, ?_⟩
    · simp only [packRaw4bpp, List.map_cons]
      rw [ih1]
      congr 1
      omega
    · intro j
      cases j with
      | zero => simp [packRaw4bpp]
      | succ j =>
        simp only [packRaw4bpp, List.getD_cons_succ]
        have h1 : 2 * (j + 1) + 1 = 2 * j + 1 + 1 + 1 := by ring
        have h2 : 2 * (j + 1) = 2 * j + 1 + 1 := by ring
        simp only [h1, h2, List.getD_cons_succ]
        exact ih2 j
    · intro j
      cases j with
      | zero => simp [packRaw4bpp]; omega
      | succ j =>
        simp only [packRaw4bpp, List.getD_cons_succ]
        exact ih3 j

/-- C2 (amended): the single-offset probe accepts exactly when strictly more
than 10 bytes (i.e. at least 11) remain from the offset, the dimension and
colour-count fields are in range, the three magic bytes match, and the
computed block span fits in the buffer. -/
theorem scanForImage_isSome_iff (bytes : List Nat) (offset : Nat) :
    (scanForImage bytes offset).isSome = true ↔ scanAcceptAmended bytes offset := by
  unfold scanForImage
  split_ifs with hok htr
  · simp only [Option.isSome_none, Bool.false_eq_true, false_iff]
    unfold scanAcceptAmended scanAcceptCore
    rintro ⟨hrem, h1, h2, h3, h4, h5, h6, h7, h8, hspan⟩
    rw [← scanTotalSize_eq_ceil] at hspan
    omega
  · simp only [Option.isSome_some, true_iff]
    unfold scanAcceptAmended scanAcceptCore
    obtain ⟨hrem, h1, h2, h3, h4, h5, h6, h7, h8⟩ := hok
    refine ⟨by omega, h1, h2, h3, h4, h5, h6, h7, h8, ?_⟩
    rw [← scanTotalSize_eq_ceil]
    omega
  · simp only [Option.isSome_none, Bool.false_eq_true, false_iff]
    unfold scanAcceptAmended scanAcceptCore
    rintro ⟨hrem, h1, h2, h3, h4, h5, h6, h7, h8, hspan⟩
    exact hok ⟨by omega, h1, h2, h3, h4, h5, h6, h7, h8⟩

/-- C2 counterexample: a 10-byte buffer holding a complete minimal block
(width 2, height 2, 1 colour, span exactly 10) satisfies every condition of
the claim — "at least 10 bytes remain" included — yet the probe returns none,
because the code demands strictly more than 10 remaining bytes. -/
theorem scanForImage_claim_refuted :
    scanForImage [2, 2, 1, 0, 1, 255, 9, 9, 9, 9] 0 = none ∧
    scanAcceptClaimed [2, 2, 1, 0, 1, 255, 9, 9, 9, 9] 0 := by
  constructor
  · rfl
  · unfold scanAcceptClaimed scanAcceptCore ceilDiv
    decide

/-- C3: the FirmwareMap produced by the full-buffer scan is ordered by
ascending offset with non-overlapping blocks:
`block[i].offset + block[i].size ≤ block[i+1].offset` for adjacent pairs. -/
theorem buildMap_sorted_nonoverlap (bytes : List Nat) :
    List.Chain' (fun a b => a.offset + a.size ≤ b.offset) (buildMap bytes) ∧
    List.Chain' (fun a b => a.offset < b.offset) (buildMap bytes) := by
  have h := buildMapAux_chain bytes 0
  unfold buildMap
  exact ⟨h.imp fun a b hab => hab.1, h.imp fun a b hab => hab.2⟩

/-- C4: palette decode reads each byte pair as a big-endian word, splits it
as BGR565 (5 bits blue in bits 15–11, 6 bits green in bits 10–5, 5 bits red
in bits 4–0), rescales with round-half-up to 8 bits, and fixes alpha at 255;
the word 0xF800 decodes to RGBA (0, 0, 255, 255). -/
theorem decodePalette_bgr565_spec (bytes : List Nat)
    (heven : 2 ∣ bytes.length) (hbyte : ∀ x ∈ bytes, x < 256) :
    (decodePalette bytes).length = bytes.length / 2 ∧
    (∀ j : Nat, j < bytes.length / 2 →
      (decodePalette bytes).getD j [] =
        specPaletteEntry (bytes.getD (2 * j) 0 * 256 + bytes.getD (2 * j + 1) 0)) ∧
    decodePalette [248, 0] = [[0, 0, 255, 255]] := by
  refine ⟨by rw [decodePalette_length]; omega, ?_, by decide⟩
  intro j hj
  have hlen : 2 ∣ bytes.length := heven
  obtain ⟨m, hm⟩ := hlen
  have h2j : 2 * j < bytes.length := by omega
  have h2j1 : 2 * j + 1 < bytes.length := by omega
  rw [decodePalette_getD bytes j (by omega)]
  apply decodeEntry_eq_spec
  · rw [List.getD_eq_getElem _ _ h2j]
    exact hbyte _ (List.getElem_mem h2j)
  · rw [List.getD_eq_getElem _ _ h2j1]
    exact hbyte _ (List.getElem_mem h2j1)

/-- C4 witness: the pair (0x07, 0xE0) — the pure-green word 0x07E0 — decodes
per the spec's field layout. -/
theorem decodePalette_bgr565_spec_witness :
    (decodePalette [7, 224]).length = 1 ∧
    (decodePalette [7, 224]).getD 0 [] = specPaletteEntry (7 * 256 + 224) := by
  have h := decodePalette_bgr565_spec [7, 224] (by decide) (by decide)
  exact ⟨h.1, h.2.1 0 (by decide)⟩

/-- C8 (amended): palette decode never fails; it returns `ceil(n / 2)` entries
for an `n`-byte input — `n / 2` when `n` is even — and an odd-length input
decodes exactly like the same input extended with a zero low byte. -/
theorem decodePalette_never_fails (bytes : List Nat) :
    (decodePalette bytes).length = (bytes.length + 1) / 2 ∧
    (bytes.length % 2 = 1 → decodePalette bytes = decodePalette (bytes ++ [0])) :=
  ⟨decodePalette_length bytes, decodePalette_odd_append bytes⟩

/-- C8 witness: the odd one-byte input `[248]`. -/
theorem decodePalette_never_fails_witness :
    (decodePalette [248]).length = 1 ∧ decodePalette [248] = decodePalette [248, 0] := by
  have h := decodePalette_never_fails [248]
  exact ⟨h.1, h.2 (by decide)⟩

/-- C8 counterexample: the odd-length input `[248]` does not fail — it
successfully decodes to one palette entry. -/
theorem decodePalette_odd_refuted :
    ([248] : List Nat).length % 2 = 1 ∧ decodePalette [248] = [[0, 0, 255, 255]] :=
  ⟨by decide, by decide⟩

/-- C9: a successful 4bpp decode (palette of at most 16 entries) yields two
pixels per byte, the low-nibble pixel at the even position and the high-nibble
pixel at the following odd position. -/
theorem decodeImage_nibble_order (bytes : List Nat) (palette pixels : List (List Nat))
    (h16 : palette.length ≤ 16) (hdec : decodeImage bytes palette = some pixels) :
    pixels.length = 2 * bytes.length ∧
    ∀ j : Nat, j < bytes.length →
      pixels.getD (2 * j) [] = palette.getD (bytes.getD j 0 % 16) [] ∧
      pixels.getD (2 * j + 1) [] = palette.getD (bytes.getD j 0 / 16) [] := by
  unfold decodeImage at hdec
  rw [if_pos h16] at hdec
  exact decodeImage4_some bytes palette pixels hdec

/-- C9 witness: byte 0x21 over a 3-entry palette decodes to palette entry 1
(low nibble) then palette entry 2 (high nibble). -/
theorem decodeImage_nibble_order_witness :
    ([[2, 2, 2, 255], [3, 3, 3, 255]] : List (List Nat)).length =
      2 * ([33] : List Nat).length ∧
    ([[2, 2, 2, 255], [3, 3, 3, 255]] : List (List Nat)).getD 0 [] =
      ([[1, 1, 1, 255], [2, 2, 2, 255], [3, 3, 3, 255]] : List (List Nat)).getD
        (33 % 16) [] ∧
    ([[2, 2, 2, 255], [3, 3, 3, 255]] : List (List Nat)).getD 1 [] =
      ([[1, 1, 1, 255], [2, 2, 2, 255], [3, 3, 3, 255]] : List (List Nat)).getD
        (33 / 16) [] := by
  have h := decodeImage_nibble_order [33]
    [[1, 1, 1, 255], [2, 2, 2, 255], [3, 3, 3, 255]]
    [[2, 2, 2, 255], [3, 3, 3, 255]] (by decide) (by rfl)
  have h0 := h.2 0 (by decide)
  exact ⟨h.1, h0.1, h0.2⟩

/-- C5 (amended): packing indices below the palette size and decoding the
packed bytes with the same palette restores the indexed palette colours in
order, exactly for 8bpp and for even 4bpp pixel counts; an odd 4bpp count
appends one extra pixel — palette entry 0, decoded from the zero-padded high
nibble of the final byte. -/
theorem pixel_codec_round_trip (palette : List (List Nat)) (indices : List Nat)
    (hb : ∀ i ∈ indices, i < palette.length) :
    (palette.length ≤ 16 →
      decodeImage (packRaw4bpp indices) palette =
        some ((indices.map fun i => palette.getD i []) ++
          (if indices.length % 2 = 1 then [palette.getD 0 []] else []))) ∧
    (16 < palette.length →
      decodeImage indices palette = some (indices.map fun i => palette.getD i [])) := by
  constructor
  · intro h16
    unfold decodeImage
    rw [if_pos h16]
    exact decodeImage4_packRaw4bpp palette indices hb h16
  · intro h16
    unfold decodeImage
    rw [if_neg (by omega)]
    exact decodeImage8_map palette indices hb

/-- C5 witness: indices `[1, 0]` over a two-colour palette round-trip through
4bpp packing to exactly their two palette colours. -/
theorem pixel_codec_round_trip_witness :
    decodeImage (packRaw4bpp [1, 0]) [[1, 2, 3, 255], [4, 5, 6, 255]] =
      some [[4, 5, 6, 255], [1, 2, 3, 255]] := by
  have h := (pixel_codec_round_trip [[1, 2, 3, 255], [4, 5, 6, 255]] [1, 0]
    (by decide)).1 (by decide)
  simpa using h

/-- C5 counterexample: for the odd one-pixel index buffer `[1]` (value below
the palette length), packing then decoding returns two pixels — the claimed
identical single-colour sequence plus a padding pixel — so the decoded
sequence is not identical to the original. -/
theorem pixel_codec_round_trip_refuted :
    (∀ i ∈ ([1] : List Nat), i < ([[10, 20, 30, 255], [40, 50, 60, 255]] :
      List (List Nat)).length) ∧
    decodeImage (packRaw4bpp [1]) [[10, 20, 30, 255], [40, 50, 60, 255]] ≠
      some (([1] : List Nat).map fun i =>
        ([[10, 20, 30, 255], [40, 50, 60, 255]] : List (List Nat)).getD i []) :=
  ⟨by decide, by decide⟩

/-- C6 (amended): when the palette's R, G, B triples are pairwise distinct,
quantizing the RGBA buffer decoded from packed indices returns the original
index sequence — followed by index 0 for the padding pixel when the 4bpp
pixel count is odd — and the entry `nearestIndex` selects for any palette
colour is always a zero-distance match. -/
theorem quantize_decode_round_trip (palette : List (List Nat)) (indices : List Nat)
    (hb : ∀ i ∈ indices, i < palette.length)
    (hdistinct : List.Pairwise (fun p q => rgb3 p ≠ rgb3 q) palette) :
    (16 < palette.length →
      (decodeImage indices palette).map (fun px => quantize px palette) =
        some indices) ∧
    (palette.length ≤ 16 →
      (decodeImage (packRaw4bpp indices) palette).map (fun px => quantize px palette) =
        some (indices ++ if indices.length % 2 = 1 then [0] else [])) ∧
    (∀ i : Nat, i < palette.length →
      sqDist (palette.getD i [])
        (palette.getD (nearestIndex (palette.getD i []) palette) []) = 0) := by
  have hnear : ∀ i ∈ indices, nearestIndex (palette.getD i []) palette = i := by
    intro i hi
    apply nearestIndex_getD palette i (hb i hi)
    intro m hm
    have hmlt : m < palette.length := by
      have := hb i hi
      omega
    have := List.pairwise_iff_getElem.mp hdistinct m i hmlt (hb i hi) hm
    rw [List.getD_eq_getElem _ _ hmlt, List.getD_eq_getElem _ _ (hb i hi)]
    exact this
  have hq : quantize (indices.map fun i => palette.getD i []) palette = indices := by
    unfold quantize
    rw [List.map_map]
    have := List.map_congr_left (l := indices)
      (f := (fun p => nearestIndex p palette) ∘ fun i => palette.getD i [])
      (g := id) (fun a ha => hnear a ha)
    rw [this, List.map_id]
  refine ⟨?_, ?_, fun i hi => nearestIndex_zero_dist palette i hi⟩
  · intro h16
    unfold decodeImage
    rw [if_neg (by omega), decodeImage8_map palette indices hb]
    simp only [Option.map_some']
    rw [hq]
  · intro h16
    unfold decodeImage
    rw [if_pos h16, decodeImage4_packRaw4bpp palette indices hb h16]
    simp only [Option.map_some', Option.some.injEq]
    have happ : quantize ((indices.map fun i => palette.getD i []) ++
        (if indices.length % 2 = 1 then [palette.getD 0 []] else [])) palette =
        quantize (indices.map fun i => palette.getD i []) palette ++
          quantize (if indices.length % 2 = 1 then [palette.getD 0 []] else [])
            palette := by
      unfold quantize
      exact List.map_append _ _ _
    rw [happ, hq]
    congr 1
    by_cases hodd : indices.length % 2 = 1
    · have hne : indices ≠ [] := by
        intro hnil
        rw [hnil] at hodd
        exact absurd hodd (by decide)
      obtain ⟨i0, hi0⟩ := List.exists_mem_of_ne_nil indices hne
      have h0 : 0 < palette.length := by
        have := hb i0 hi0
        omega
      simp only [if_pos hodd]
      unfold quantize
      simp only [List.map_cons, List.map_nil]
      rw [nearestIndex_getD palette 0 h0 (fun m hm => absurd hm (by omega))]
    · simp only [if_neg hodd]
      rfl

/-- C6 witness: indices `[1, 0]` over a two-colour palette with distinct
colours quantize back to `[1, 0]` after a 4bpp decode. -/
theorem quantize_decode_round_trip_witness :
    (decodeImage (packRaw4bpp [1, 0]) [[1, 2, 3, 255], [4, 5, 6, 255]]).map
        (fun px => quantize px [[1, 2, 3, 255], [4, 5, 6, 255]]) = some [1, 0] := by
  have h := (quantize_decode_round_trip [[1, 2, 3, 255], [4, 5, 6, 255]] [1, 0]
    (by decide) (by decide)).2.1 (by decide)
  simpa using h

/-- C6 counterexample: over a palette whose two entries share the same
colour, decoding indices `[1, 1]` (both below the palette length) and
quantizing gives `[0, 0]`, not the original `[1, 1]` — the first zero-distance
entry wins. -/
theorem quantize_decode_round_trip_refuted :
    (∀ i ∈ ([1, 1] : List Nat), i < ([[5, 5, 5, 255], [5, 5, 5, 255]] :
      List (List Nat)).length) ∧
    (decodeImage (packRaw4bpp [1, 1]) [[5, 5, 5, 255], [5, 5, 5, 255]]).map
        (fun px => quantize px [[5, 5, 5, 255], [5, 5, 5, 255]]) ≠ some [1, 1] :=
  ⟨by decide, by decide⟩
